import Mathlib

/-!
Verification of the BIS-LAB repository: a Particle Swarm Optimization
engine (`src/LAB-2/pso.py`) and an Ant Colony Optimization engine
(`src/LAB-3/aco.py`).

The Python code is shallowly embedded here.  Machine floats are modelled
by exact rationals (`ℚ`); the Euclidean distance-matrix construction,
which needs a square root, is modelled over `ℝ`.  Randomness is made
explicit: every random draw of the Python code becomes a parameter of
the corresponding Lean function (a stream of rationals in the interval
the Python generator draws from).  NumPy's `np.random.choice(range(n),
p=probs)` is modelled by inverse-CDF sampling of one uniform draw
`u ∈ [0,1)`, and the division-by-zero abort that normalising an all-zero
score vector produces is modelled by an `Option` result (`none` = the
run aborts).
-/

namespace PSOspec

/-- `objective_function(x) = sum(x_i ** 2 for x_i in x)` from
`src/LAB-2/pso.py`. -/
def objective_function (x : List ℚ) : ℚ :=
  (x.map (fun xi => xi ^ 2)).sum

/-- A PSO particle: `position`, `velocity`, `pBest`, `pBest_fitness`,
exactly the attributes of class `Particle`. -/
structure Particle where
  position : List ℚ
  velocity : List ℚ
  pBest : List ℚ
  pBest_fitness : ℚ

/-- `Particle.__init__`: the random draws for `position` (uniform in
`[bounds[0], bounds[1]]`) and `velocity` (uniform in `[-1, 1]`) are
passed in as the lists `pos` and `vel`; `pBest` is a copy of the
position and `pBest_fitness` its objective value. -/
def Particle.init (pos vel : List ℚ) : Particle :=
  { position := pos, velocity := vel, pBest := pos,
    pBest_fitness := objective_function pos }

/-- The PSO swarm state: bounds, the particle list, the global best
position and fitness, and the fixed coefficients `w`, `c1`, `c2`. -/
structure PSO where
  bounds : ℚ × ℚ
  particles : List Particle
  gBest : List ℚ
  gBest_fitness : ℚ
  w : ℚ
  c1 : ℚ
  c2 : ℚ

/-- `PSO.__init__`: the particle list is `p0 :: rest` (the code indexes
`self.particles[0]`, so at least one particle must exist); `gBest` is a
copy of particle 0's position and `gBest_fitness` particle 0's
`pBest_fitness`; `w = 0.5`, `c1 = c2 = 1.5`. -/
def PSO.init (bounds : ℚ × ℚ) (p0 : Particle) (rest : List Particle) : PSO :=
  { bounds := bounds, particles := p0 :: rest,
    gBest := p0.position, gBest_fitness := p0.pBest_fitness,
    w := 1/2, c1 := 3/2, c2 := 3/2 }

/-- One step of the evaluation pass of `PSO.optimize`: recompute the
fitness of each particle in turn, update its personal best, then update
the running global best `(gB, gF)`.  Returns the updated particle list
and the updated global best pair. -/
def evalPass : List Particle → List ℚ × ℚ → List Particle × (List ℚ × ℚ)
  | [], g => ([], g)
  | p :: ps, (gB, gF) =>
      let fitness := objective_function p.position
      let p' := if fitness < p.pBest_fitness then
                  { p with pBest := p.position, pBest_fitness := fitness }
                else p
      let g' := if fitness < gF then (p.position, fitness) else (gB, gF)
      let rest := evalPass ps g'
      (p' :: rest.1, rest.2)

/-- The move pass of `PSO.optimize` on the coordinate lists of one
particle.  `r j` supplies the pair of fresh uniform draws `(r1, r2)` for
dimension `j`.  For each dimension: the new velocity is
`w*v + c1*r1*(pb - x) + c2*r2*(gb - x)`, the new position is
`x + v'` clamped into `[lb, ub]` by `max lb (min _ ub)`; the velocity is
stored unclamped.  Returns (new positions, new velocities). -/
def moveLists (w c1 c2 lb ub : ℚ) (r : ℕ → ℚ × ℚ) :
    ℕ → List ℚ → List ℚ → List ℚ → List ℚ → List ℚ × List ℚ
  | j, x :: xs, v :: vs, pb :: pbs, gb :: gbs =>
      let v' := w * v + c1 * (r j).1 * (pb - x) + c2 * (r j).2 * (gb - x)
      let x' := max lb (min (x + v') ub)
      let rest := moveLists w c1 c2 lb ub r (j+1) xs vs pbs gbs
      (x' :: rest.1, v' :: rest.2)
  | _, _, _, _, _ => ([], [])

/-- Move one particle: update its position and velocity lists, keeping
`pBest` and `pBest_fitness` untouched. -/
def moveParticle (w c1 c2 lb ub : ℚ) (gBest : List ℚ) (r : ℕ → ℚ × ℚ)
    (p : Particle) : Particle :=
  let m := moveLists w c1 c2 lb ub r 0 p.position p.velocity p.pBest gBest
  { p with position := m.1, velocity := m.2 }

/-- The move pass over the whole particle list; `r i` supplies the
random stream of particle number `i`. -/
def movePass (w c1 c2 lb ub : ℚ) (gBest : List ℚ) (r : ℕ → ℕ → ℚ × ℚ) :
    ℕ → List Particle → List Particle
  | _, [] => []
  | i, p :: ps =>
      moveParticle w c1 c2 lb ub gBest (r i) p ::
        movePass w c1 c2 lb ub gBest r (i+1) ps

/-- One iteration of the loop in `PSO.optimize`: the evaluation pass
over all particles followed by the move pass over all particles (the
move pass uses the global best left by the evaluation pass). -/
def PSO.iterate (s : PSO) (r : ℕ → ℕ → ℚ × ℚ) : PSO :=
  let e := evalPass s.particles (s.gBest, s.gBest_fitness)
  { s with
      particles := movePass s.w s.c1 s.c2 s.bounds.1 s.bounds.2 e.2.1 r 0 e.1,
      gBest := e.2.1, gBest_fitness := e.2.2 }

/-- The state of the swarm after `k` iterations of `PSO.optimize`;
`rss k` is the random stream consumed by iteration `k`. -/
def PSO.run (rss : ℕ → ℕ → ℕ → ℚ × ℚ) (s : PSO) : ℕ → PSO
  | 0 => s
  | k + 1 => (PSO.run rss s k).iterate (rss k)

/-- The value returned by `PSO.optimize` after `iters` iterations: the
pair `(gBest, gBest_fitness)`. -/
def PSO.optimize (s : PSO) (rss : ℕ → ℕ → ℕ → ℚ × ℚ) (iters : ℕ) :
    List ℚ × ℚ :=
  ((PSO.run rss s iters).gBest, (PSO.run rss s iters).gBest_fitness)

/-- The minimum of the `pBest_fitness` values of a (nonempty) particle
list, i.e. `min over all particles' personalBestFitness`. -/
def minPBestList : List Particle → ℚ
  | [] => 0
  | p :: ps => ps.foldl (fun m q => min m q.pBest_fitness) p.pBest_fitness

end PSOspec

namespace ACOspec

/-- The wrap-around indexing `path[i - 1]` of the Python code: for
`i = 0` the negative index `-1` selects the last element, otherwise the
element at `i - 1`. -/
def pyPrev (path : List ℕ) (i : ℕ) : ℕ :=
  if i = 0 then path.getLastD 0 else path.getD (i - 1) 0

/-- The directed edges `(path[i-1], path[i])` for `i in range(len(path))`
used by both `calculate_distance` and `update_pheromones`; index `0`
yields the wrap-around edge from the last city back to the first. -/
def pathEdges (path : List ℕ) : List (ℕ × ℕ) :=
  (List.range path.length).map (fun i => (pyPrev path i, path.getD i 0))

/-- The unnormalised desirability scores built by `choose_next_city` for
`next_city in range(n)`: `0` for a city already in `path`, otherwise
`pheromones[current][next] ** alpha * (1 / distances[current][next]) ** beta`.
The exponents are the integer parameters `alpha = a`, `beta = b`. -/
def scores (n : ℕ) (pher dist : ℕ → ℕ → ℚ) (a b : ℕ)
    (current : ℕ) (path : List ℕ) : List ℚ :=
  (List.range n).map (fun next =>
    if next ∈ path then 0 else pher current next ^ a * (1 / dist current next) ^ b)

/-- Inverse-CDF sampling of `np.random.choice(range(n), p=probs)` from a
uniform draw `u`: the first index whose probability mass exceeds the
remaining `u`. -/
def pickIndex : List ℚ → ℚ → ℕ
  | [], _ => 0
  | p :: ps, u => if u < p then 0 else pickIndex ps (u - p) + 1

/-- `choose_next_city`: build the score list, normalise it by its sum
and sample.  When the sum is zero the Python code divides by zero inside
the normalisation and the run aborts; this is modelled by `none`. -/
def choose_next_city (n : ℕ) (pher dist : ℕ → ℕ → ℚ) (a b : ℕ)
    (current : ℕ) (path : List ℕ) (u : ℚ) : Option ℕ :=
  let probs := scores n pher dist a b current path
  if probs.sum = 0 then none
  else some (pickIndex (probs.map (fun x => x / probs.sum)) u)

/-- The `while len(path) < n` loop of `construct_solution`, with fuel
`k` (the number of cities still to append): each round chooses a next
city from the last city of `path` using the fresh uniform draw `us k`
and appends it. -/
def constructLoop (n : ℕ) (pher dist : ℕ → ℕ → ℚ) (a b : ℕ)
    (us : ℕ → ℚ) : ℕ → List ℕ → Option (List ℕ)
  | 0, path => some path
  | k + 1, path =>
      match choose_next_city n pher dist a b (path.getLastD 0) path (us (k+1)) with
      | none => none
      | some c => constructLoop n pher dist a b us k (path ++ [c])

/-- `construct_solution`: start from the random starting city `start`
(the draw `random.randint(0, n-1)`) and extend the path until it holds
all `n` cities. -/
def construct_solution (n : ℕ) (pher dist : ℕ → ℕ → ℚ) (a b : ℕ)
    (us : ℕ → ℚ) (start : ℕ) : Option (List ℕ) :=
  constructLoop n pher dist a b us (n - 1) [start]

/-- `calculate_distance`: the total length
`sum(distances[path[i-1]][path[i]] for i in range(len(path)))` of a
path, wrap-around edge included. -/
def calculate_distance (dist : ℕ → ℕ → ℚ) (path : List ℕ) : ℚ :=
  ((pathEdges path).map (fun e => dist e.1 e.2)).sum

/-- Pointwise evaporation `self.pheromones *= (1 - rho)`. -/
def evaporate (rho : ℚ) (pher : ℕ → ℕ → ℚ) : ℕ → ℕ → ℚ :=
  fun i j => (1 - rho) * pher i j

/-- Add `c` to the single pheromone entry `e = (e.1, e.2)`. -/
def addAt (pher : ℕ → ℕ → ℚ) (e : ℕ × ℕ) (c : ℚ) : ℕ → ℕ → ℚ :=
  fun i j => if i = e.1 ∧ j = e.2 then pher i j + c else pher i j

/-- Deposit `c` on every edge `(path[i-1], path[i])` of one path. -/
def depositPath (c : ℚ) (path : List ℕ) (pher : ℕ → ℕ → ℚ) : ℕ → ℕ → ℚ :=
  (pathEdges path).foldl (fun m e => addAt m e c) pher

/-- `update_pheromones`: evaporate every entry by the factor
`(1 - rho)`, then for each `(path, distance)` pair deposit
`deposit / distance` on every edge of the path. -/
def update_pheromones (rho deposit : ℚ) (paths : List (List ℕ))
    (dists : List ℚ) (pher : ℕ → ℕ → ℚ) : ℕ → ℕ → ℚ :=
  (paths.zip dists).foldl
    (fun m pd => depositPath (deposit / pd.2) pd.1 m)
    (evaporate rho pher)

/-- One comparison of the best-update scan in `ACO.run`:
`if distance < best_distance: best_path, best_distance = path, distance`.
`none` models the initial pair `(None, float('inf'))`, against which any
distance wins. -/
def bestStep (b : Option (List ℕ × ℚ)) (pd : List ℕ × ℚ) :
    Option (List ℕ × ℚ) :=
  match b with
  | none => some pd
  | some best => if pd.2 < best.2 then some pd else b

/-- The scan over all `(path, distance)` pairs of one iteration. -/
def bestScan (pds : List (List ℕ × ℚ)) (b : Option (List ℕ × ℚ)) :
    Option (List ℕ × ℚ) :=
  pds.foldl bestStep b

/-- Construct one tour per ant (the list comprehension
`[self.construct_solution() for _ in range(self.n_ants)]`); `ants` is
the list of ant indices, `starts`/`us` their random draws.  A failed
construction aborts the whole run. -/
def constructAnts (n : ℕ) (pher dist : ℕ → ℕ → ℚ) (a b : ℕ)
    (starts : ℕ → ℕ) (us : ℕ → ℕ → ℚ) : List ℕ → Option (List (List ℕ))
  | [] => some []
  | k :: rest =>
      match construct_solution n pher dist a b (us k) (starts k) with
      | none => none
      | some p =>
          match constructAnts n pher dist a b starts us rest with
          | none => none
          | some ps => some (p :: ps)

/-- The iteration loop of `ACO.run` with fuel `iters`; the state is the
pheromone matrix together with the running best `(path, distance)` pair
(`none` = `(None, float('inf'))`).  Each round: construct all tours,
compute their distances, update the pheromones, scan for a strictly
better tour.  The random streams are shifted by one on each round. -/
def runLoop (n : ℕ) (dist : ℕ → ℕ → ℚ) (a b : ℕ) (rho deposit : ℚ)
    (ants : List ℕ) :
    (ℕ → ℕ → ℕ) → (ℕ → ℕ → ℕ → ℚ) → ℕ →
    (ℕ → ℕ → ℚ) × Option (List ℕ × ℚ) →
    Option ((ℕ → ℕ → ℚ) × Option (List ℕ × ℚ))
  | _, _, 0, st => some st
  | starts, us, k + 1, st =>
      match constructAnts n st.1 dist a b (starts 0) (us 0) ants with
      | none => none
      | some paths =>
          let ds := paths.map (calculate_distance dist)
          runLoop n dist a b rho deposit ants
            (fun i => starts (i+1)) (fun i => us (i+1)) k
            (update_pheromones rho deposit paths ds st.1,
             bestScan (paths.zip ds) st.2)

/-- `ACO.run`: start from the all-ones pheromone matrix of the
constructor and the initial best pair `(None, float('inf'))`. -/
def run (n : ℕ) (dist : ℕ → ℕ → ℚ) (a b : ℕ) (rho deposit : ℚ)
    (ants : List ℕ) (starts : ℕ → ℕ → ℕ) (us : ℕ → ℕ → ℕ → ℚ)
    (iters : ℕ) : Option ((ℕ → ℕ → ℚ) × Option (List ℕ × ℚ)) :=
  runLoop n dist a b rho deposit ants starts us iters (fun _ _ => 1, none)

/-- `calculate_distances` from `src/LAB-3/aco.py`: entry `(i, j)` is
`np.linalg.norm(cities[i] - cities[j])`, the Euclidean distance between
the 2-D city coordinates. -/
noncomputable def calculate_distances (cities : List (ℝ × ℝ)) (i j : ℕ) : ℝ :=
  Real.sqrt (((cities.getD i (0, 0)).1 - (cities.getD j (0, 0)).1) ^ 2
    + ((cities.getD i (0, 0)).2 - (cities.getD j (0, 0)).2) ^ 2)

/-- A 2-D point as an element of the Euclidean plane
`EuclideanSpace ℝ (Fin 2)`. -/
noncomputable def toPlane (p : ℝ × ℝ) : EuclideanSpace ℝ (Fin 2) :=
  (WithLp.equiv 2 (Fin 2 → ℝ)).symm ![p.1, p.2]

/-- Folding `addAt` over an edge list adds `c` once per occurrence of
the entry's index pair in the list. -/
theorem foldl_addAt_apply (c : ℚ) :
    ∀ (es : List (ℕ × ℕ)) (m : ℕ → ℕ → ℚ) (i j : ℕ),
      (es.foldl (fun m e => addAt m e c) m) i j
        = m i j + c * es.count (i, j) := by
  intro es
  induction es with
  | nil => intro m i j; simp
  | cons e es ih =>
      intro m i j
      rw [List.foldl_cons, ih, List.count_cons]
      by_cases h : (i, j) = e
      · have h1 : i = e.1 ∧ j = e.2 := by
          constructor <;> rw [← h]
        simp only [addAt, if_pos h1, h, beq_self_eq_true, if_true]
        push_cast
        ring
      · have h1 : ¬(i = e.1 ∧ j = e.2) := by
          intro hc
          exact h (Prod.ext hc.1 hc.2)
        have h2 : ¬(e == (i, j)) = true := by
          simp only [beq_iff_eq]
          intro hc
          exact h hc.symm
        simp only [addAt, if_neg h1, if_neg h2]
        push_cast
        ring

/-- `depositPath` adds its contribution once per occurrence of the
entry among the path's (wrap-around) edges. -/
theorem depositPath_apply (c : ℚ) (path : List ℕ) (m : ℕ → ℕ → ℚ)
    (i j : ℕ) :
    depositPath c path m i j = m i j + c * (pathEdges path).count (i, j) :=
  foldl_addAt_apply c (pathEdges path) m i j

/-- Folding the per-path deposits over all `(path, distance)` pairs adds
the sum of all the individual contributions. -/
theorem foldl_depositPath_apply (dep : ℚ) :
    ∀ (pds : List (List ℕ × ℚ)) (m : ℕ → ℕ → ℚ) (i j : ℕ),
      (pds.foldl (fun m pd => depositPath (dep / pd.2) pd.1 m) m) i j
        = m i j
          + (pds.map (fun pd =>
              dep / pd.2 * ((pathEdges pd.1).count (i, j) : ℚ))).sum := by
  intro pds
  induction pds with
  | nil => intro m i j; simp
  | cons pd pds ih =>
      intro m i j
      rw [List.foldl_cons, ih, depositPath_apply, List.map_cons, List.sum_cons]
      ring

/-- C3: `update_pheromones(paths, distances)` first multiplies every
pheromone entry by `(1 - rho)`, then for each `(path, distance)` pair
adds `deposit/distance` to entry `(path[i-1], path[i])` for every
`i in 0..len(path)-1` — entrywise, the new value is the evaporated old
value plus, for each pair, `deposit/distance` times the number of
occurrences of the entry among the path's edges; and the edge of index
`i = 0` is the wrap-around edge from the last city of the tour back to
the first. -/
theorem update_pheromones_formula :
    (∀ (rho dep : ℚ) (paths : List (List ℕ)) (dists : List ℚ)
        (pher : ℕ → ℕ → ℚ) (i j : ℕ),
      update_pheromones rho dep paths dists pher i j
        = (1 - rho) * pher i j
          + ((paths.zip dists).map (fun pd =>
              dep / pd.2 * ((pathEdges pd.1).count (i, j) : ℚ))).sum)
    ∧ ∀ path : List ℕ, path ≠ [] →
        (pathEdges path).getD 0 (0, 0) = (path.getLastD 0, path.getD 0 0) := by
  constructor
  · intro rho dep paths dists pher i j
    rw [update_pheromones, foldl_depositPath_apply]
    rfl
  · intro path hne
    have hlen : 0 < path.length := List.length_pos.mpr hne
    have hlt : 0 < (pathEdges path).length := by
      simpa [pathEdges] using hlen
    rw [List.getD_eq_getElem _ _ hlt]
    simp [pathEdges, pyPrev, List.getElem_map, List.getElem_range]

/-- Witness for C3's wrap-around hypothesis at the concrete tour
`[0, 1]`: its edge of index `0` joins city `1` back to city `0`. -/
theorem update_pheromones_formula_witness :
    (pathEdges [0, 1]).getD 0 (0, 0)
      = (([0, 1] : List ℕ).getLastD 0, ([0, 1] : List ℕ).getD 0 0) :=
  update_pheromones_formula.2 [0, 1] (by decide)

end ACOspec

namespace PSOspec

/-- The global-best fitness left by an evaluation pass never exceeds the
one it started from: each comparison only overwrites on strict
improvement. -/
theorem evalPass_fitness_le (ps : List Particle) :
    ∀ gB gF, (evalPass ps (gB, gF)).2.2 ≤ gF := by
  induction ps with
  | nil => intro gB gF; exact le_refl _
  | cons p ps ih =>
      intro gB gF
      show (evalPass (p :: ps) (gB, gF)).2.2 ≤ gF
      simp only [evalPass]
      split
      · exact (ih _ _).trans (le_of_lt (by assumption))
      · exact ih gB gF

/-- C9: within a single PSO run, `gBest_fitness` is non-increasing
across successive evaluation passes: one evaluation pass never raises
it (it is overwritten only on strict improvement), so the value after
iteration `k+1` is at most the value after iteration `k`, for every
`k`. -/
theorem gBest_fitness_nonincreasing :
    (∀ (ps : List Particle) (gB : List ℚ) (gF : ℚ),
        (evalPass ps (gB, gF)).2.2 ≤ gF)
    ∧ ∀ (rss : ℕ → ℕ → ℕ → ℚ × ℚ) (s : PSO) (k : ℕ),
        (PSO.run rss s (k + 1)).gBest_fitness
          ≤ (PSO.run rss s k).gBest_fitness := by
  refine ⟨fun ps gB gF => evalPass_fitness_le ps gB gF, ?_⟩
  intro rss s k
  show ((PSO.run rss s k).iterate (rss k)).gBest_fitness ≤ _
  simp only [PSO.iterate]
  exact evalPass_fitness_le _ _ _

/-- An evaluation pass keeps the global best pair consistent: whenever
the incoming fitness value is the objective of the incoming best
position, the same holds of the outgoing pair, since every overwrite
stores a position together with its freshly computed objective value. -/
theorem evalPass_gBest_obj (ps : List Particle) :
    ∀ gB gF, gF = objective_function gB →
      (evalPass ps (gB, gF)).2.2
        = objective_function (evalPass ps (gB, gF)).2.1 := by
  induction ps with
  | nil => intro gB gF h; exact h
  | cons p ps ih =>
      intro gB gF h
      simp only [evalPass]
      split
      · exact ih _ _ rfl
      · exact ih _ _ h

/-- C10: at all times after PSO construction, `gBest_fitness` equals
`objective_function gBest`; in particular the pair returned by
`optimize` is consistent: the reported fitness is exactly the objective
value of the reported position. -/
theorem gBest_fitness_eq_objective :
    ∀ (bds : ℚ × ℚ) (pos vel : List ℚ) (rest : List Particle)
      (rss : ℕ → ℕ → ℕ → ℚ × ℚ),
      (∀ k, (PSO.run rss (PSO.init bds (Particle.init pos vel) rest) k).gBest_fitness
          = objective_function
              ((PSO.run rss (PSO.init bds (Particle.init pos vel) rest) k).gBest))
      ∧ ∀ iters,
          (PSO.optimize (PSO.init bds (Particle.init pos vel) rest) rss iters).2
            = objective_function
                (PSO.optimize (PSO.init bds (Particle.init pos vel) rest) rss iters).1 := by
  intro bds pos vel rest rss
  have main : ∀ k,
      (PSO.run rss (PSO.init bds (Particle.init pos vel) rest) k).gBest_fitness
        = objective_function
            ((PSO.run rss (PSO.init bds (Particle.init pos vel) rest) k).gBest) := by
    intro k
    induction k with
    | zero => rfl
    | succ k ih =>
        show ((PSO.run rss _ k).iterate (rss k)).gBest_fitness = _
        simp only [PSO.iterate]
        exact evalPass_gBest_obj _ _ _ ih
  exact ⟨main, fun iters => main iters⟩

/-- The coordinatewise content of `moveLists`: for equal-length input
lists, coordinate `i` of the new velocity list is
`w*v[i] + c1*r1*(pb[i]-x[i]) + c2*r2*(gb[i]-x[i])` with the draws
`(r1, r2) = r (j+i)`, and coordinate `i` of the new position list is
the old coordinate plus that velocity, clamped into `[lb, ub]`. -/
theorem moveLists_getD (w c1 c2 lb ub : ℚ) (r : ℕ → ℚ × ℚ) :
    ∀ (xs vs pbs gbs : List ℚ) (j i : ℕ),
      vs.length = xs.length → pbs.length = xs.length →
      gbs.length = xs.length → i < xs.length →
      (moveLists w c1 c2 lb ub r j xs vs pbs gbs).2.getD i 0
          = w * vs.getD i 0 + c1 * (r (j + i)).1 * (pbs.getD i 0 - xs.getD i 0)
            + c2 * (r (j + i)).2 * (gbs.getD i 0 - xs.getD i 0)
        ∧ (moveLists w c1 c2 lb ub r j xs vs pbs gbs).1.getD i 0
          = max lb (min (xs.getD i 0
              + (w * vs.getD i 0 + c1 * (r (j + i)).1 * (pbs.getD i 0 - xs.getD i 0)
                 + c2 * (r (j + i)).2 * (gbs.getD i 0 - xs.getD i 0))) ub) := by
  intro xs
  induction xs with
  | nil =>
      intro vs pbs gbs j i _ _ _ hi
      exact absurd hi (Nat.not_lt_zero i)
  | cons x xs ih =>
      intro vs pbs gbs j i hv hp hg hi
      cases vs with
      | nil => simp at hv
      | cons v vs =>
      cases pbs with
      | nil => simp at hp
      | cons pb pbs =>
      cases gbs with
      | nil => simp at hg
      | cons gb gbs =>
      cases i with
      | zero => constructor <;> simp [moveLists]
      | succ i =>
          have hji : j + (i + 1) = (j + 1) + i := by omega
          have hv' : vs.length = xs.length := by simpa using hv
          have hp' : pbs.length = xs.length := by simpa using hp
          have hg' : gbs.length = xs.length := by simpa using hg
          have hi' : i < xs.length := by simpa using hi
          have := ih vs pbs gbs (j + 1) i hv' hp' hg' hi'
          simpa [moveLists, hji] using this

/-- C4: in a PSO move pass, for every particle and every dimension `i`
independently, with the fresh uniform draws `(r1, r2) = r i`, the new
velocity is `w*v[i] + c1*r1*(pBest[i]-position[i]) +
c2*r2*(gBest[i]-position[i])`; the new position is the old position
plus the new velocity, clamped into `[lb, ub]`; the velocity is stored
unclamped, and the personal best data are untouched. -/
theorem velocity_position_update_rule :
    ∀ (w c1 c2 lb ub : ℚ) (gBest : List ℚ) (r : ℕ → ℚ × ℚ)
      (p : Particle) (i : ℕ),
      p.velocity.length = p.position.length →
      p.pBest.length = p.position.length →
      gBest.length = p.position.length →
      i < p.position.length →
      (moveParticle w c1 c2 lb ub gBest r p).velocity.getD i 0
          = w * p.velocity.getD i 0
            + c1 * (r i).1 * (p.pBest.getD i 0 - p.position.getD i 0)
            + c2 * (r i).2 * (gBest.getD i 0 - p.position.getD i 0)
        ∧ (moveParticle w c1 c2 lb ub gBest r p).position.getD i 0
          = max lb (min (p.position.getD i 0
              + (w * p.velocity.getD i 0
                 + c1 * (r i).1 * (p.pBest.getD i 0 - p.position.getD i 0)
                 + c2 * (r i).2 * (gBest.getD i 0 - p.position.getD i 0))) ub)
        ∧ (moveParticle w c1 c2 lb ub gBest r p).pBest = p.pBest
        ∧ (moveParticle w c1 c2 lb ub gBest r p).pBest_fitness
          = p.pBest_fitness := by
  intro w c1 c2 lb ub gBest r p i hv hp hg hi
  have h := moveLists_getD w c1 c2 lb ub r p.position p.velocity p.pBest gBest
    0 i hv hp hg hi
  rw [Nat.zero_add] at h
  exact ⟨h.1, h.2, rfl, rfl⟩

/-- Witness for C4 at a concrete one-dimensional particle. -/
theorem velocity_position_update_rule_witness :
    (moveParticle (1/2) (3/2) (3/2) (-10) 10 [4] (fun _ => (1/4, 1/3))
        (Particle.mk [1] [2] [3] 9)).velocity.getD 0 0 = 13/4
    ∧ (moveParticle (1/2) (3/2) (3/2) (-10) 10 [4] (fun _ => (1/4, 1/3))
        (Particle.mk [1] [2] [3] 9)).position.getD 0 0 = 17/4 := by
  have h := velocity_position_update_rule (1/2) (3/2) (3/2) (-10) 10 [4]
    (fun _ => (1/4, 1/3)) (Particle.mk [1] [2] [3] 9) 0 rfl rfl rfl (by decide)
  refine ⟨h.1.trans ?_, h.2.1.trans ?_⟩
  · norm_num
  · rw [show ((Particle.mk [1] [2] [3] (9:ℚ)).position.getD 0 0
        + (1/2 * (Particle.mk [1] [2] [3] (9:ℚ)).velocity.getD 0 0
          + 3/2 * ((fun _ => ((1:ℚ)/4, (1:ℚ)/3)) 0).1
            * ((Particle.mk [1] [2] [3] (9:ℚ)).pBest.getD 0 0
               - (Particle.mk [1] [2] [3] (9:ℚ)).position.getD 0 0)
          + 3/2 * ((fun _ => ((1:ℚ)/4, (1:ℚ)/3)) 0).2
            * (([4] : List ℚ).getD 0 0
               - (Particle.mk [1] [2] [3] (9:ℚ)).position.getD 0 0))) = 17/4
      from by norm_num]
    rw [min_eq_left (by norm_num), max_eq_right (by norm_num)]

/-- Every coordinate of the position list produced by `moveLists` has
been clamped into `[lb, ub]` (provided the interval is nonempty). -/
theorem moveLists_position_bounds (w c1 c2 lb ub : ℚ) (r : ℕ → ℚ × ℚ)
    (hb : lb ≤ ub) :
    ∀ (xs vs pbs gbs : List ℚ) (j : ℕ),
      ∀ x ∈ (moveLists w c1 c2 lb ub r j xs vs pbs gbs).1,
        lb ≤ x ∧ x ≤ ub := by
  intro xs
  induction xs with
  | nil => intro vs pbs gbs j x hx; simp [moveLists] at hx
  | cons x0 xs ih =>
      intro vs pbs gbs j x hx
      cases vs with
      | nil => simp [moveLists] at hx
      | cons v vs =>
      cases pbs with
      | nil => simp [moveLists] at hx
      | cons pb pbs =>
      cases gbs with
      | nil => simp [moveLists] at hx
      | cons gb gbs =>
      simp only [moveLists, List.mem_cons] at hx
      rcases hx with h | h
      · subst h
        exact ⟨le_max_left _ _, max_le hb (min_le_right _ _)⟩
      · exact ih vs pbs gbs (j + 1) x h

/-- Every particle coming out of a move pass has all its position
coordinates inside `[lb, ub]` (provided the interval is nonempty). -/
theorem movePass_position_bounds (w c1 c2 lb ub : ℚ) (gBest : List ℚ)
    (r : ℕ → ℕ → ℚ × ℚ) (hb : lb ≤ ub) :
    ∀ (ps : List Particle) (i : ℕ),
      ∀ p ∈ movePass w c1 c2 lb ub gBest r i ps,
        ∀ x ∈ p.position, lb ≤ x ∧ x ≤ ub := by
  intro ps
  induction ps with
  | nil => intro i p hp; simp [movePass] at hp
  | cons q ps ih =>
      intro i p hp x hx
      simp only [movePass, List.mem_cons] at hp
      rcases hp with h | h
      · subst h
        exact moveLists_position_bounds w c1 c2 lb ub (r i) hb _ _ _ _ 0 x hx
      · exact ih (i + 1) p h x hx

/-- The `bounds` field is never modified by the optimization loop. -/
theorem run_bounds (rss : ℕ → ℕ → ℕ → ℚ × ℚ) (s : PSO) :
    ∀ k, (PSO.run rss s k).bounds = s.bounds := by
  intro k
  induction k with
  | zero => rfl
  | succ k ih => simpa [PSO.run, PSO.iterate] using ih

/-- C7: for every PSO particle, at all times after initialization —
immediately after the random draw at construction (which lies within
the bounds) and after every move pass — every coordinate of `position`
lies within `[lowerBound, upperBound]`. -/
theorem positions_within_bounds :
    ∀ (lb ub : ℚ) (pos vel : List ℚ) (rest : List (List ℚ × List ℚ))
      (rss : ℕ → ℕ → ℕ → ℚ × ℚ),
      lb ≤ ub →
      (∀ x ∈ pos, lb ≤ x ∧ x ≤ ub) →
      (∀ pv ∈ rest, ∀ x ∈ pv.1, lb ≤ x ∧ x ≤ ub) →
      ∀ k, ∀ p ∈ (PSO.run rss (PSO.init (lb, ub) (Particle.init pos vel)
            (rest.map fun pv => Particle.init pv.1 pv.2)) k).particles,
        ∀ x ∈ p.position, lb ≤ x ∧ x ≤ ub := by
  intro lb ub pos vel rest rss hb hpos hrest k
  cases k with
  | zero =>
      intro p hp x hx
      simp only [PSO.run, PSO.init, List.mem_cons, List.mem_map] at hp
      rcases hp with h | ⟨pv, hpv, h⟩
      · subst h; exact hpos x hx
      · subst h; exact hrest pv hpv x hx
  | succ k =>
      intro p hp x hx
      have hbnd := run_bounds rss (PSO.init (lb, ub) (Particle.init pos vel)
        (rest.map fun pv => Particle.init pv.1 pv.2)) k
      simp only [PSO.run, PSO.iterate] at hp
      rw [hbnd] at hp
      exact movePass_position_bounds _ _ _ lb ub _ _ hb _ 0 p hp x hx

/-- Witness for C7: one particle at position `[0]` with bounds
`[-10, 10]`; its coordinate after initialization lies within the
bounds. -/
theorem positions_within_bounds_witness :
    (-10 : ℚ) ≤ 0 ∧ (0 : ℚ) ≤ 10 :=
  positions_within_bounds (-10) 10 [0] [0] [] (fun _ _ _ => (0, 0))
    (by decide) (by decide) (by decide) 0 (Particle.init [0] [0])
    (by simp [PSO.run, PSO.init]) 0 (by simp [Particle.init])

end PSOspec

namespace ACOspec

/-- C8: for any input city list, the distance matrix computed at colony
construction has entry `(i, j)` equal to the Euclidean distance between
city `i` and city `j` (the metric of the Euclidean plane), is symmetric,
and has a zero diagonal. -/
theorem calculate_distances_euclidean_symm_diag :
    ∀ (cities : List (ℝ × ℝ)),
      (∀ i j, calculate_distances cities i j
            = dist (toPlane (cities.getD i (0, 0))) (toPlane (cities.getD j (0, 0)))
          ∧ calculate_distances cities i j = calculate_distances cities j i)
      ∧ ∀ i, calculate_distances cities i i = 0 := by
  intro cities
  constructor
  · intro i j
    constructor
    · rw [EuclideanSpace.dist_eq, Fin.sum_univ_two]
      simp only [toPlane, calculate_distances, WithLp.equiv_symm_pi_apply,
        Matrix.cons_val_zero, Matrix.cons_val_one, Matrix.head_cons,
        Real.dist_eq, sq_abs]
    · unfold calculate_distances
      ring_nf
  · intro i
    unfold calculate_distances
    simp

end ACOspec

namespace PSOspec

/-- The personal-best update applied to one particle by the evaluation
pass. -/
def updP (p : Particle) : Particle :=
  if objective_function p.position < p.pBest_fitness then
    { p with pBest := p.position, pBest_fitness := objective_function p.position }
  else p

/-- The updated personal-best fitness is the minimum of the old one and
the fresh fitness. -/
theorem updP_pBest_fitness (p : Particle) :
    (updP p).pBest_fitness
      = min p.pBest_fitness (objective_function p.position) := by
  unfold updP
  split
  · next h => exact (min_eq_right (le_of_lt h)).symm
  · next h => exact (min_eq_left (not_lt.mp h)).symm

/-- The particle list produced by the evaluation pass is the pointwise
personal-best update; the global best does not feed back into it. -/
theorem evalPass_particles (ps : List Particle) :
    ∀ g : List ℚ × ℚ, (evalPass ps g).1 = ps.map updP := by
  induction ps with
  | nil => intro g; rfl
  | cons p ps ih =>
      intro g
      obtain ⟨gB, gF⟩ := g
      simp only [evalPass, List.map_cons]
      rw [ih]
      rfl

/-- The global-best fitness produced by the evaluation pass is the fold
of `min` over all the freshly computed fitness values. -/
theorem evalPass_gF (ps : List Particle) :
    ∀ (gB : List ℚ) (gF : ℚ),
      (evalPass ps (gB, gF)).2.2
        = (ps.map (fun p => objective_function p.position)).foldl min gF := by
  induction ps with
  | nil => intro gB gF; rfl
  | cons p ps ih =>
      intro gB gF
      simp only [evalPass, List.map_cons, List.foldl_cons]
      split
      · next h => rw [ih]; congr 1; exact (min_eq_right (le_of_lt h)).symm
      · next h => rw [ih]; congr 1; exact (min_eq_left (not_lt.mp h)).symm

/-- Folding `min` from a `min` of two seeds peels off the first seed. -/
theorem foldl_min_comm : ∀ (l : List ℚ) (a b : ℚ),
    l.foldl min (min a b) = min a (l.foldl min b) := by
  intro l
  induction l with
  | nil => intro a b; rfl
  | cons c l ih =>
      intro a b
      rw [List.foldl_cons, List.foldl_cons, min_assoc, ih]

/-- Folding `min` over a pointwise `min` of two equal-length lists is
the `min` of the two folds. -/
theorem foldl_min_zipWith : ∀ (L F : List ℚ) (a b : ℚ), L.length = F.length →
    (List.zipWith min L F).foldl min (min a b)
      = min (L.foldl min a) (F.foldl min b) := by
  intro L
  induction L with
  | nil =>
      intro F a b h
      cases F with
      | nil => rfl
      | cons y F => simp at h
  | cons x L ih =>
      intro F a b h
      cases F with
      | nil => simp at h
      | cons y F =>
          rw [List.zipWith_cons_cons, List.foldl_cons, List.foldl_cons,
            List.foldl_cons, min_min_min_comm, ih _ _ _ (by simpa using h)]

/-- Pointwise minima of the two fitness lists, as a `zipWith`. -/
theorem map_min_eq_zipWith (tl : List Particle) :
    tl.map (fun q => min q.pBest_fitness (objective_function q.position))
      = List.zipWith min (tl.map (fun q => q.pBest_fitness))
          (tl.map (fun q => objective_function q.position)) := by
  induction tl with
  | nil => rfl
  | cons q tl ih =>
      rw [List.map_cons, List.map_cons, List.map_cons,
        List.zipWith_cons_cons, ih]

/-- `minPBestList` as a fold over the personal-best fitness list. -/
theorem minPBestList_cons (p : Particle) (tl : List Particle) :
    minPBestList (p :: tl)
      = (tl.map (fun q => q.pBest_fitness)).foldl min p.pBest_fitness := by
  rw [minPBestList, List.foldl_map]

/-- `minPBestList` only depends on the personal-best fitness values. -/
theorem minPBestList_eq_of_map_eq :
    ∀ (ps qs : List Particle),
      ps.map (fun q => q.pBest_fitness) = qs.map (fun q => q.pBest_fitness) →
      minPBestList ps = minPBestList qs := by
  intro ps qs h
  cases ps with
  | nil => cases qs with
      | nil => rfl
      | cons q qs => simp at h
  | cons p ps =>
      cases qs with
      | nil => simp at h
      | cons q qs =>
          simp only [List.map_cons, List.cons.injEq] at h
          rw [minPBestList_cons, minPBestList_cons, h.1, h.2]

/-- A move pass never touches the personal-best fitness values. -/
theorem movePass_map_pBf (w c1 c2 lb ub : ℚ) (gB : List ℚ)
    (r : ℕ → ℕ → ℚ × ℚ) :
    ∀ (ps : List Particle) (i : ℕ),
      (movePass w c1 c2 lb ub gB r i ps).map (fun q => q.pBest_fitness)
        = ps.map (fun q => q.pBest_fitness) := by
  intro ps
  induction ps with
  | nil => intro i; rfl
  | cons p ps ih =>
      intro i
      simp only [movePass, List.map_cons]
      rw [ih]
      rfl

/-- A move pass keeps the particle list nonempty. -/
theorem movePass_ne_nil (w c1 c2 lb ub : ℚ) (gB : List ℚ)
    (r : ℕ → ℕ → ℚ × ℚ) (ps : List Particle) (i : ℕ) (h : ps ≠ []) :
    movePass w c1 c2 lb ub gB r i ps ≠ [] := by
  cases ps with
  | nil => exact absurd rfl h
  | cons p ps => simp [movePass]

/-- One iteration keeps the particle list nonempty. -/
theorem iterate_ne_nil (s : PSO) (r : ℕ → ℕ → ℚ × ℚ)
    (h : s.particles ≠ []) : (s.iterate r).particles ≠ [] := by
  simp only [PSO.iterate]
  apply movePass_ne_nil
  rw [evalPass_particles]
  simpa using h

/-- If the global best already equals the minimum of the personal
bests, one full iteration preserves that equality. -/
theorem iterate_min_invariant (s : PSO) (r : ℕ → ℕ → ℚ × ℚ)
    (hne : s.particles ≠ [])
    (h : s.gBest_fitness = minPBestList s.particles) :
    (s.iterate r).gBest_fitness = minPBestList (s.iterate r).particles := by
  obtain ⟨p, tl, hps⟩ := List.exists_cons_of_ne_nil hne
  have hmp : minPBestList (s.iterate r).particles
      = minPBestList (evalPass s.particles (s.gBest, s.gBest_fitness)).1 := by
    apply minPBestList_eq_of_map_eq
    simp only [PSO.iterate]
    exact movePass_map_pBf _ _ _ _ _ _ _ _ _
  have hg : (s.iterate r).gBest_fitness
      = (evalPass s.particles (s.gBest, s.gBest_fitness)).2.2 := rfl
  have hmap : (tl.map updP).map (fun q => q.pBest_fitness)
      = tl.map (fun q => min q.pBest_fitness (objective_function q.position)) := by
    rw [List.map_map]
    apply List.map_congr_left
    intro q _
    exact updP_pBest_fitness q
  rw [hps] at h
  rw [hg, hmp, hps, evalPass_particles, List.map_cons, evalPass_gF, h,
    List.map_cons, List.foldl_cons, minPBestList_cons p tl, foldl_min_comm,
    minPBestList_cons (updP p), updP_pBest_fitness, hmap, map_min_eq_zipWith,
    foldl_min_zipWith _ _ _ _ (by simp)]

end PSOspec

namespace PSOspec

/-- If every particle's personal-best fitness is the objective value of
its current position (as after `Particle.__init__`) and the global best
is seeded from the head particle, then after one full iteration the
global best equals the minimum of the personal bests. -/
theorem iterate_min_establish (s : PSO) (r : ℕ → ℕ → ℚ × ℚ)
    (p : Particle) (tl : List Particle) (hps : s.particles = p :: tl)
    (hint : ∀ q ∈ s.particles,
      q.pBest_fitness = objective_function q.position)
    (hseed : s.gBest_fitness = p.pBest_fitness) :
    (s.iterate r).gBest_fitness = minPBestList (s.iterate r).particles := by
  have hmp : minPBestList (s.iterate r).particles
      = minPBestList (evalPass s.particles (s.gBest, s.gBest_fitness)).1 := by
    apply minPBestList_eq_of_map_eq
    simp only [PSO.iterate]
    exact movePass_map_pBf _ _ _ _ _ _ _ _ _
  have hg : (s.iterate r).gBest_fitness
      = (evalPass s.particles (s.gBest, s.gBest_fitness)).2.2 := rfl
  rw [hps] at hint
  have hobj : (p :: tl).map (fun q => objective_function q.position)
      = (p :: tl).map (fun q => q.pBest_fitness) :=
    List.map_congr_left (fun q hq => (hint q hq).symm)
  have hupd : (List.map updP (p :: tl)).map (fun q => q.pBest_fitness)
      = (p :: tl).map (fun q => q.pBest_fitness) := by
    rw [List.map_map]
    apply List.map_congr_left
    intro q hq
    show (updP q).pBest_fitness = q.pBest_fitness
    rw [updP_pBest_fitness, ← hint q hq, min_self]
  rw [hg, hmp, hps, evalPass_particles, evalPass_gF, hseed,
    minPBestList_eq_of_map_eq _ _ hupd, hobj, List.map_cons,
    List.foldl_cons, min_self, minPBestList_cons]

/-- The particle list of a run started from `PSO.init` is never
empty. -/
theorem run_particles_ne_nil (rss : ℕ → ℕ → ℕ → ℚ × ℚ) (bds : ℚ × ℚ)
    (p0 : Particle) (rest : List Particle) :
    ∀ k, (PSO.run rss (PSO.init bds p0 rest) k).particles ≠ [] := by
  intro k
  induction k with
  | zero => simp [PSO.run, PSO.init]
  | succ k ih => exact iterate_ne_nil _ _ ih

/-- C1 (amended): immediately after construction, `gBest_fitness`
equals particle 0's `pBest_fitness` (the seeding the spec describes in
§4.2), not in general the minimum over all particles; the stated
invariant `gBest_fitness = min over all particles' pBest_fitness` holds
from the first evaluation pass onward, i.e. after every iteration
`k + 1` of a run started from freshly initialized particles. -/
theorem gBest_seeded_from_head_min_after_eval :
    ∀ (bds : ℚ × ℚ) (pos vel : List ℚ) (pvs : List (List ℚ × List ℚ))
      (rss : ℕ → ℕ → ℕ → ℚ × ℚ),
      (PSO.init bds (Particle.init pos vel)
          (pvs.map fun pv => Particle.init pv.1 pv.2)).gBest_fitness
        = (Particle.init pos vel).pBest_fitness
      ∧ ∀ k, (PSO.run rss (PSO.init bds (Particle.init pos vel)
            (pvs.map fun pv => Particle.init pv.1 pv.2)) (k + 1)).gBest_fitness
          = minPBestList (PSO.run rss (PSO.init bds (Particle.init pos vel)
              (pvs.map fun pv => Particle.init pv.1 pv.2)) (k + 1)).particles := by
  intro bds pos vel pvs rss
  refine ⟨rfl, ?_⟩
  intro k
  induction k with
  | zero =>
      show ((PSO.run rss _ 0).iterate (rss 0)).gBest_fitness = _
      refine iterate_min_establish _ (rss 0) (Particle.init pos vel) _ rfl ?_ rfl
      intro q hq
      simp only [PSO.run, PSO.init, List.mem_cons, List.mem_map] at hq
      rcases hq with h | ⟨pv, _, h⟩
      · subst h; rfl
      · subst h; rfl
  | succ k ih =>
      show ((PSO.run rss _ (k + 1)).iterate (rss (k + 1))).gBest_fitness = _
      exact iterate_min_invariant _ _ (run_particles_ne_nil _ _ _ _ (k + 1)) ih

/-- Counterexample to C1 as stated: immediately after construction with
particle 0 at position `[1]` (fitness `1`) and particle 1 at position
`[0]` (fitness `0`), the swarm's `gBest_fitness` is `1`, not the
minimum `0` of the personal-best fitness values. -/
theorem gBest_fitness_ne_min_at_init :
    ¬ ((PSO.init (-10, 10) (Particle.init [1] [0])
          [Particle.init [0] [0]]).gBest_fitness
        = minPBestList (PSO.init (-10, 10) (Particle.init [1] [0])
            [Particle.init [0] [0]]).particles) := by
  simp only [PSO.init, Particle.init, minPBestList, objective_function,
    List.map_cons, List.map_nil, List.sum_cons, List.sum_nil,
    List.foldl_cons, List.foldl_nil]
  rw [min_eq_right (by norm_num)]
  norm_num

end PSOspec

namespace ACOspec

/-- Inverse-CDF sampling from a nonnegative mass list: when the draw is
below the total mass, the selected index is in range and carries
strictly positive mass. -/
theorem pickIndex_spec :
    ∀ (ps : List ℚ) (u : ℚ), (∀ p ∈ ps, 0 ≤ p) → 0 ≤ u → u < ps.sum →
      pickIndex ps u < ps.length ∧ 0 < ps.getD (pickIndex ps u) 0 := by
  intro ps
  induction ps with
  | nil =>
      intro u _ hu hlt
      simp only [List.sum_nil] at hlt
      linarith
  | cons p ps ih =>
      intro u hpos hu hlt
      by_cases h : u < p
      · refine ⟨?_, ?_⟩
        · simp [pickIndex, h]
        · simp only [pickIndex, if_pos h, List.getD_cons_zero]
          linarith
      · have hp : p ≤ u := not_lt.mp h
        have h1 : ∀ q ∈ ps, 0 ≤ q := fun q hq => hpos q (List.mem_cons_of_mem _ hq)
        have h2 : 0 ≤ u - p := by linarith
        have h3 : u - p < ps.sum := by
          simp only [List.sum_cons] at hlt
          linarith
        obtain ⟨hl, hg⟩ := ih (u - p) h1 h2 h3
        refine ⟨?_, ?_⟩
        · simp only [pickIndex, if_neg h, List.length_cons]
          omega
        · simpa only [pickIndex, if_neg h, List.getD_cons_succ] using hg

/-- Dividing every element of a list by a constant divides its sum. -/
theorem sum_map_div (l : List ℚ) (c : ℚ) :
    (l.map (fun x => x / c)).sum = l.sum / c := by
  induction l with
  | nil => simp
  | cons x l ih => simp [ih, add_div]

/-- The score list of `choose_next_city` has one entry per city. -/
theorem scores_length (n : ℕ) (pher dist : ℕ → ℕ → ℚ) (a b : ℕ)
    (current : ℕ) (path : List ℕ) :
    (scores n pher dist a b current path).length = n := by
  simp [scores]

/-- With nonnegative pheromone and distance matrices every score is
nonnegative. -/
theorem scores_nonneg (n : ℕ) (pher dist : ℕ → ℕ → ℚ) (a b : ℕ)
    (current : ℕ) (path : List ℕ)
    (hpher : ∀ i j, 0 ≤ pher i j) (hdist : ∀ i j, 0 ≤ dist i j) :
    ∀ x ∈ scores n pher dist a b current path, 0 ≤ x := by
  intro x hx
  simp only [scores, List.mem_map, List.mem_range] at hx
  obtain ⟨next, _, rfl⟩ := hx
  split
  · exact le_refl 0
  · exact mul_nonneg (pow_nonneg (hpher current next) a)
      (pow_nonneg (one_div_nonneg.mpr (hdist current next)) b)

/-- The score of city `i` (for `i < n`): zero for a visited city, the
pheromone/visibility product otherwise. -/
theorem scores_getD (n : ℕ) (pher dist : ℕ → ℕ → ℚ) (a b : ℕ)
    (current : ℕ) (path : List ℕ) (i : ℕ) (hi : i < n) :
    (scores n pher dist a b current path).getD i 0
      = if i ∈ path then 0
        else pher current i ^ a * (1 / dist current i) ^ b := by
  have hlen : i < (scores n pher dist a b current path).length := by
    rw [scores_length]; exact hi
  rw [List.getD_eq_getElem _ _ hlen]
  simp [scores]

/-- Whenever `choose_next_city` succeeds (the score sum is nonzero) and
the matrices are nonnegative while the uniform draw lies in `[0, 1)`,
the sampled city is a fresh city: in range and not yet on the path. -/
theorem choose_next_city_mem (n : ℕ) (pher dist : ℕ → ℕ → ℚ) (a b : ℕ)
    (current : ℕ) (path : List ℕ) (u : ℚ) (c : ℕ)
    (hpher : ∀ i j, 0 ≤ pher i j) (hdist : ∀ i j, 0 ≤ dist i j)
    (hu0 : 0 ≤ u) (hu1 : u < 1)
    (hsome : choose_next_city n pher dist a b current path u = some c) :
    c < n ∧ c ∉ path := by
  by_cases hS : (scores n pher dist a b current path).sum = 0
  · simp [choose_next_city, hS] at hsome
  · simp only [choose_next_city, if_neg hS, Option.some.injEq] at hsome
    have hnn := scores_nonneg n pher dist a b current path hpher hdist
    have hSpos : 0 < (scores n pher dist a b current path).sum :=
      lt_of_le_of_ne (List.sum_nonneg hnn) (Ne.symm hS)
    set probs := scores n pher dist a b current path with hprobs
    have hnn' : ∀ p ∈ probs.map (fun x => x / probs.sum), 0 ≤ p := by
      intro p hp
      obtain ⟨x, hx, rfl⟩ := List.mem_map.mp hp
      exact div_nonneg (hnn x hx) (le_of_lt hSpos)
    have hsum1 : (probs.map (fun x => x / probs.sum)).sum = 1 := by
      rw [sum_map_div, div_self hS]
    obtain ⟨hlen, hpos⟩ := pickIndex_spec (probs.map (fun x => x / probs.sum)) u
      hnn' hu0 (by rw [hsum1]; exact hu1)
    set idx := pickIndex (probs.map (fun x => x / probs.sum)) u with hidx
    have hlenn : idx < n := by
      rw [List.length_map, hprobs, scores_length] at hlen
      exact hlen
    have hgd : (probs.map (fun x => x / probs.sum)).getD idx 0
        = probs.getD idx 0 / probs.sum := by
      have h0 : (0 : ℚ) = (fun x => x / probs.sum) 0 := by simp
      rw [h0, List.getD_map]
      simp
    rw [hgd] at hpos
    have hscore : 0 < probs.getD idx 0 := by
      rcases div_pos_iff.mp hpos with ⟨h1, _⟩ | ⟨_, h2⟩
      · exact h1
      · exact absurd hSpos (not_lt.mpr (le_of_lt h2))
    rw [hprobs, scores_getD n pher dist a b current path idx hlenn] at hscore
    have hfresh : idx ∉ path := by
      intro hmem
      rw [if_pos hmem] at hscore
      exact lt_irrefl 0 hscore
    subst hsome
    exact ⟨hlenn, hfresh⟩

/-- Invariant of the `while len(path) < n` loop: starting from a
nonempty duplicate-free partial path of in-range cities that needs
`fuel` more cities, a successful run returns a duplicate-free list of
exactly `n` in-range cities. -/
theorem constructLoop_spec (n : ℕ) (pher dist : ℕ → ℕ → ℚ) (a b : ℕ)
    (us : ℕ → ℚ)
    (hpher : ∀ i j, 0 ≤ pher i j) (hdist : ∀ i j, 0 ≤ dist i j)
    (hus : ∀ k, 0 ≤ us k ∧ us k < 1) :
    ∀ (fuel : ℕ) (path res : List ℕ),
      path.Nodup → (∀ x ∈ path, x < n) → path.length + fuel = n →
      constructLoop n pher dist a b us fuel path = some res →
      res.Nodup ∧ res.length = n ∧ ∀ x ∈ res, x < n := by
  intro fuel
  induction fuel with
  | zero =>
      intro path res hnd hbd hlen heq
      simp only [constructLoop, Option.some.injEq] at heq
      subst heq
      exact ⟨hnd, by omega, hbd⟩
  | succ fuel ih =>
      intro path res hnd hbd hlen heq
      simp only [constructLoop] at heq
      cases hch : choose_next_city n pher dist a b (path.getLastD 0) path
          (us (fuel + 1)) with
      | none => rw [hch] at heq; exact absurd heq (by simp)
      | some c =>
          rw [hch] at heq
          have hc := choose_next_city_mem n pher dist a b (path.getLastD 0)
            path (us (fuel + 1)) c hpher hdist (hus (fuel + 1)).1
            (hus (fuel + 1)).2 hch
          refine ih (path ++ [c]) res ?_ ?_ ?_ heq
          · rw [List.nodup_append]
            exact ⟨hnd, List.nodup_singleton c,
              by simpa [List.disjoint_singleton] using hc.2⟩
          · intro x hx
            rcases List.mem_append.mp hx with h | h
            · exact hbd x h
            · rw [List.mem_singleton.mp h]; exact hc.1
          · simp only [List.length_append, List.length_singleton]
            omega

/-- C2: for every colony with `n ≥ 1` cities (here: a random starting
city `start < n`), nonnegative pheromone and distance matrices and
uniform draws in `[0, 1)`, every path returned by `construct_solution`
is a permutation of the city indices `0..n-1`: it has length `n` and
each city index below `n` appears in it exactly once. -/
theorem construct_solution_permutation :
    ∀ (n : ℕ) (pher dist : ℕ → ℕ → ℚ) (a b : ℕ) (us : ℕ → ℚ)
      (start : ℕ) (path : List ℕ),
      (∀ i j, 0 ≤ pher i j) → (∀ i j, 0 ≤ dist i j) →
      (∀ k, 0 ≤ us k ∧ us k < 1) → start < n →
      construct_solution n pher dist a b us start = some path →
      List.Perm path (List.range n) ∧ path.length = n
        ∧ ∀ c, c < n → path.count c = 1 := by
  intro n pher dist a b us start path hpher hdist hus hstart hsome
  obtain ⟨hnd, hlen, hbd⟩ := constructLoop_spec n pher dist a b us hpher hdist
    hus (n - 1) [start] path (List.nodup_singleton start)
    (by intro x hx; rw [List.mem_singleton.mp hx]; exact hstart)
    (by simp only [List.length_singleton]; omega) hsome
  have hsub : path ⊆ List.range n := fun x hx => List.mem_range.mpr (hbd x hx)
  have hperm : List.Perm path (List.range n) :=
    (List.subperm_of_subset hnd hsub).perm_of_length_le
      (by rw [List.length_range, hlen])
  refine ⟨hperm, hlen, fun c hc => ?_⟩
  rw [hperm.count_eq]
  exact List.count_eq_one_of_mem (List.nodup_range n) (List.mem_range.mpr hc)

/-- Witness for C2: with two cities, all-ones pheromones, unit
off-diagonal distances and zero draws, the ant starting at city `0`
produces the tour `[0, 1]`, a permutation of `0..1`. -/
theorem construct_solution_permutation_witness :
    ([0, 1] : List ℕ).length = 2
      ∧ ∀ c, c < 2 → ([0, 1] : List ℕ).count c = 1 := by
  have h := construct_solution_permutation 2 (fun _ _ => 1)
    (fun i j => if i = j then 0 else 1) 1 2 (fun _ => 0) 0 [0, 1]
    (fun i j => by norm_num)
    (fun i j => by dsimp only; split <;> norm_num)
    (fun k => by norm_num) (by norm_num)
    (by simp only [construct_solution, constructLoop, choose_next_city,
          scores, pickIndex, List.range_succ, List.range_zero]
        norm_num)
  exact ⟨h.2.1, h.2.2⟩

end ACOspec

namespace ACOspec

/-- The best-update scan preserves consistency of the best pair: if
every scanned pair carries the true tour distance of its path and the
incoming best does too, so does the outgoing best. -/
theorem bestScan_consistent (dist : ℕ → ℕ → ℚ) :
    ∀ (pds : List (List ℕ × ℚ)) (b : Option (List ℕ × ℚ)),
      (∀ pd ∈ pds, pd.2 = calculate_distance dist pd.1) →
      (∀ p d, b = some (p, d) → d = calculate_distance dist p) →
      ∀ p d, bestScan pds b = some (p, d) → d = calculate_distance dist p := by
  intro pds
  induction pds with
  | nil => intro b _ hb p d h; exact hb p d h
  | cons pd pds ih =>
      intro b hpds hb p d h
      refine ih (bestStep b pd)
        (fun q hq => hpds q (List.mem_cons_of_mem _ hq)) ?_ p d h
      intro p' d' hstep
      have hpd := hpds pd (List.mem_cons_self _ _)
      cases b with
      | none =>
          simp only [bestStep, Option.some.injEq] at hstep
          subst hstep
          simpa using hpd
      | some best =>
          simp only [bestStep] at hstep
          split at hstep
          · simp only [Option.some.injEq] at hstep
            subst hstep
            simpa using hpd
          · exact hb p' d' hstep

/-- The best-update scan never increases an already-set best distance:
a pair replaces the best only when its distance strictly improves. -/
theorem bestScan_mono :
    ∀ (pds : List (List ℕ × ℚ)) (p : List ℕ) (d : ℚ),
      ∃ p' d', bestScan pds (some (p, d)) = some (p', d') ∧ d' ≤ d := by
  intro pds
  induction pds with
  | nil => exact fun p d => ⟨p, d, rfl, le_refl d⟩
  | cons pd pds ih =>
      intro p d
      by_cases h : pd.2 < d
      · obtain ⟨p', d', heq, hle⟩ := ih pd.1 pd.2
        refine ⟨p', d', ?_, le_trans hle (le_of_lt h)⟩
        simpa [bestScan, bestStep, h] using heq
      · obtain ⟨p', d', heq, hle⟩ := ih p d
        refine ⟨p', d', ?_, hle⟩
        simpa [bestScan, bestStep, h] using heq

/-- Every pair scanned in one iteration of `ACO.run` couples a path
with exactly its computed tour distance. -/
theorem zip_map_calc (dist : ℕ → ℕ → ℚ) :
    ∀ paths : List (List ℕ),
      ∀ pd ∈ paths.zip (paths.map (calculate_distance dist)),
        pd.2 = calculate_distance dist pd.1 := by
  intro paths
  induction paths with
  | nil => intro pd hpd; simp at hpd
  | cons q paths ih =>
      intro pd hpd
      simp only [List.map_cons, List.zip_cons_cons, List.mem_cons] at hpd
      rcases hpd with h | h
      · rw [h]
      · exact ih pd h

/-- Invariant of the `ACO.run` iteration loop: a successful run
preserves consistency of the running best pair, and can only lower an
already-set best distance. -/
theorem runLoop_spec (n : ℕ) (dist : ℕ → ℕ → ℚ) (a b : ℕ)
    (rho dep : ℚ) (ants : List ℕ) :
    ∀ (k : ℕ) (starts : ℕ → ℕ → ℕ) (us : ℕ → ℕ → ℕ → ℚ)
      (st res : (ℕ → ℕ → ℚ) × Option (List ℕ × ℚ)),
      runLoop n dist a b rho dep ants starts us k st = some res →
      ((∀ p d, st.2 = some (p, d) → d = calculate_distance dist p) →
        ∀ p d, res.2 = some (p, d) → d = calculate_distance dist p)
      ∧ ∀ p d, st.2 = some (p, d) →
          ∃ p' d', res.2 = some (p', d') ∧ d' ≤ d := by
  intro k
  induction k with
  | zero =>
      intro starts us st res heq
      simp only [runLoop, Option.some.injEq] at heq
      subst heq
      exact ⟨fun h => h, fun p d h => ⟨p, d, h, le_refl d⟩⟩
  | succ k ih =>
      intro starts us st res heq
      simp only [runLoop] at heq
      cases hca : constructAnts n st.1 dist a b (starts 0) (us 0) ants with
      | none => rw [hca] at heq; exact absurd heq (by simp)
      | some paths =>
          rw [hca] at heq
          have h2 := ih (fun i => starts (i + 1)) (fun i => us (i + 1)) _ res heq
          constructor
          · intro hcons
            refine h2.1 ?_
            exact bestScan_consistent dist _ _ (zip_map_calc dist paths) hcons
          · intro p d hst
            rw [hst] at h2
            obtain ⟨p1, d1, hb1, hle1⟩ :=
              bestScan_mono (paths.zip (paths.map (calculate_distance dist))) p d
            obtain ⟨p2, d2, hb2, hle2⟩ := h2.2 p1 d1 hb1
            exact ⟨p2, d2, hb2, le_trans hle2 hle1⟩

/-- C5: in the ACO run loop the running best starts as
`(None, float('inf'))` (modelled `none`) and is replaced only on strict
improvement, so a successful run never increases an already-set best
distance (the running best distance is monotonically non-increasing
across iterations), and any best pair a run returns is consistent: the
returned best distance is exactly the tour distance of the returned
best path. -/
theorem run_best_monotone_consistent :
    ∀ (n : ℕ) (dist : ℕ → ℕ → ℚ) (a b : ℕ) (rho dep : ℚ) (ants : List ℕ)
      (starts : ℕ → ℕ → ℕ) (us : ℕ → ℕ → ℕ → ℚ) (k : ℕ)
      (st res : (ℕ → ℕ → ℚ) × Option (List ℕ × ℚ)),
      runLoop n dist a b rho dep ants starts us k st = some res →
      ((∀ p d, st.2 = some (p, d) → d = calculate_distance dist p) →
        ∀ p d, res.2 = some (p, d) → d = calculate_distance dist p)
      ∧ (∀ p d, st.2 = some (p, d) →
          ∃ p' d', res.2 = some (p', d') ∧ d' ≤ d)
      ∧ ∀ res', run n dist a b rho dep ants starts us k = some res' →
          ∀ p d, res'.2 = some (p, d) → d = calculate_distance dist p := by
  intro n dist a b rho dep ants starts us k st res heq
  have h := runLoop_spec n dist a b rho dep ants k starts us st res heq
  refine ⟨h.1, h.2, ?_⟩
  intro res' hres' p d
  have h' := runLoop_spec n dist a b rho dep ants k starts us
    ((fun _ _ => 1), none) res' hres'
  exact h'.1 (fun p d hpd => by simp at hpd) p d

/-- Witness for C5 with one city, one ant and one iteration started
from a best pair `([0], 0)`: the returned best distance is still at
most `0`. -/
theorem run_best_monotone_consistent_witness :
    ∃ p' d',
      (bestScan ([[0]].zip ([[0]].map (calculate_distance
          (fun _ _ => (0 : ℚ))))) (some ([0], 0))) = some (p', d')
        ∧ d' ≤ 0 := by
  have h := run_best_monotone_consistent 1 (fun _ _ => 0) 1 2 0 0 [0]
    (fun _ _ => 0) (fun _ _ _ => 0) 1 ((fun _ _ => 1), some ([0], 0))
    (update_pheromones 0 0 [[0]]
        ([[0]].map (calculate_distance (fun _ _ => 0))) (fun _ _ => 1),
      bestScan ([[0]].zip ([[0]].map (calculate_distance (fun _ _ => 0))))
        (some ([0], 0)))
    rfl
  exact h.2.1 [0] 0 rfl

end ACOspec
